import Mathlib

/-!
Shallow embedding of the goqite message queue engine (goqite.go), its
transactional wrapper (internal/sql/tx.go) and the post-callback step of the
job runner (jobs/runner.go), together with proofs of the specification claims.

Timestamps are modelled as natural numbers (milliseconds since an epoch); the
Go code stores RFC3339 text whose lexicographic order coincides with
chronological order, so `Nat` ordering is faithful.  Message ids are
storage-generated opaque tokens, modelled as `Nat`.  Bodies are opaque byte
strings, modelled as `List Nat`.  The `updated` column of the schema is
maintained by a store trigger and read by no query, so it is omitted from the
row model.
-/

namespace Goqite

/-- One persisted row of the shared message table (schema.sql). -/
structure Row where
  id : Nat
  queue : String
  body : List Nat
  created : Nat
  timeout : Nat
  received : Nat
  priority : Int
  deriving Repr, DecidableEq

/-- Queue configuration, as held by `goqite.Queue` after `New` has applied
defaults: the queue name, the max receive count and the lease duration
(called `timeout` in the Go struct). -/
structure Queue where
  name : String
  maxReceive : Nat
  timeout : Nat
  deriving Repr, DecidableEq

/-- The `goqite.Message` struct.  `Receive` only ever fills `ID` and `Body`;
the other two fields keep their Go zero values in a received message. -/
structure Message where
  ID : Nat
  Body : List Nat
  Delay : Int
  Priority : Int
  deriving Repr, DecidableEq

/-- The store is the list of rows of the shared table. -/
abbrev Store := List Row

/-- The WHERE clause of the claiming subquery in `ReceiveTx`:
`queue = ? and ? >= timeout and received < ?`, with `?` filled by the queue
name, `now` and the queue's max receive count. -/
def claimableB (q : Queue) (now : Nat) (r : Row) : Bool :=
  r.queue == q.name && decide (r.timeout ≤ now) && decide (r.received < q.maxReceive)

/-- Strict comparison realising `order by priority desc, created`:
`a` comes strictly before `b`. -/
def keyLt (a b : Row) : Prop :=
  b.priority < a.priority ∨ (a.priority = b.priority ∧ a.created < b.created)

instance (a b : Row) : Decidable (keyLt a b) := by
  unfold keyLt; infer_instance

/-- Scan for the row coming first under `order by priority desc, created`,
starting from candidate `a` (ties keep the earlier row). -/
def select1 (a : Row) : List Row → Row
  | [] => a
  | r :: rs => select1 (if keyLt r a then r else a) rs

/-- The claiming subquery of `ReceiveTx`:
`select id from goqite where <claimable> order by priority desc, created limit 1`,
returning the whole selected row (`none` when no row qualifies). -/
def selectMsg (q : Queue) (now : Nat) (st : Store) : Option Row :=
  match st.filter (claimableB q now) with
  | [] => none
  | r :: rs => some (select1 r rs)

/-- The SET clause of `ReceiveTx` applied to the selected row: the lease
timeout becomes `now + q.timeout` and `received` is incremented. -/
def claimUpdate (q : Queue) (now : Nat) (selId : Nat) (r : Row) : Row :=
  if r.id == selId then { r with timeout := now + q.timeout, received := r.received + 1 } else r

/-- `Queue.ReceiveTx`: atomically claim the best claimable row, or report
absence (`nil, nil` in Go) leaving the store unchanged.  The returned
`Message` has only `ID` and `Body` filled; `Delay` and `Priority` stay at the
Go zero value, as in `var m Message`. -/
def ReceiveTx (q : Queue) (now : Nat) (st : Store) : Store × Option Message :=
  match selectMsg q now st with
  | none => (st, none)
  | some sel =>
      (st.map (claimUpdate q now sel.id),
       some { ID := sel.id, Body := sel.body, Delay := 0, Priority := 0 })

/-- `Queue.SendAndGetIDTx`: panics (modelled as `Except.error`) when the
delay is negative, before any store access; otherwise inserts a row with
`timeout = now + delay`, `received = 0` and the message's priority, the id
and `created` stamp being generated by the storage layer. -/
def SendAndGetIDTx (q : Queue) (now : Nat) (newId : Nat) (newCreated : Nat)
    (m : Message) (st : Store) : Except String (Store × Nat) :=
  if m.Delay < 0 then .error "delay cannot be negative"
  else .ok (st ++ [{ id := newId, queue := q.name, body := m.Body, created := newCreated,
                     timeout := now + m.Delay.toNat, received := 0, priority := m.Priority }],
            newId)

/-- `Queue.ExtendTx`: panics (modelled as `Except.error`) when the delay is
negative; otherwise `update goqite set timeout = now + delay where queue = ? and id = ?`. -/
def ExtendTx (q : Queue) (now : Nat) (id : Nat) (delay : Int) (st : Store) :
    Except String Store :=
  if delay < 0 then .error "delay cannot be negative"
  else .ok (st.map fun r =>
    if r.queue == q.name && r.id == id then { r with timeout := now + delay.toNat } else r)

/-- `Queue.DeleteTx`: `delete from goqite where queue = ? and id = ?`. -/
def DeleteTx (q : Queue) (id : Nat) (st : Store) : Store :=
  st.filter fun r => !(r.queue == q.name && r.id == id)

/-! ### Transactional wrapper (internal/sql/tx.go, `InTx`)

The database state is an abstract type `σ`.  Beginning a transaction hands
the callback a snapshot of the database; commit installs the callback's final
transaction state; rollback discards it.  Whether `Begin`, `Commit` and
`Rollback` themselves fail is part of the environment, modelled by three
`Option String` parameters.  The callback either returns normally (with a new
transaction state and an optional error) or panics. -/

/-- Outcome of the callback handed to `InTx`: a normal return carrying the
transaction state and an optional error, or a panic with a value. -/
inductive CbResult (σ : Type) where
  | ret (tx : σ) (err : Option String)
  | panicked (v : String)
  deriving Repr, DecidableEq

/-- Outcome of `InTx`: either a normal return with the resulting database
state and an optional error, or a propagated panic (the database state after
the rollback performed by the deferred recover). -/
inductive TxOutcome (σ : Type) where
  | normal (db : σ) (err : Option String)
  | panicOut (db : σ) (v : String)
  deriving Repr, DecidableEq

/-- The `rollback` helper of tx.go: if `tx.Rollback()` fails, wrap both the
rollback failure and the original error in one compound error; otherwise
return the original error unchanged. -/
def rollbackErrOf (rollbackFail : Option String) (err : Option String) : Option String :=
  match rollbackFail with
  | some txErr =>
      some ("cannot roll back tx after error (tx error: " ++ txErr
            ++ "), original error: " ++ err.getD "")
  | none => err

/-- `InTx` of tx.go: begin a transaction, run the callback, commit on
success, roll back (and surface errors as described in `rollbackErrOf`) on a
returned error, and roll back then re-panic on a panic. -/
def InTx {σ : Type} (beginFail commitFail rollbackFail : Option String)
    (db : σ) (cb : σ → CbResult σ) : TxOutcome σ :=
  match beginFail with
  | some e => .normal db (some ("cannot start tx: " ++ e))
  | none =>
    match cb db with
    | .panicked v => .panicOut db v
    | .ret tx err =>
      match err with
      | some e => .normal db (rollbackErrOf rollbackFail (some e))
      | none =>
        match commitFail with
        | some e => .normal db (some ("cannot commit tx: " ++ e))
        | none => .normal tx none

/-! ### Polling receive (`ReceiveAndWait`)

`ReceiveAndWait` starts a ticker with the given interval and attempts a
`Receive` only on each tick, so the first attempt happens one full interval
after the call and consecutive attempts are one interval apart.  The model
takes fuel (the number of ticks before the context would be cancelled) and
also returns the list of instants at which a `Receive` was attempted. -/

/-- `Queue.ReceiveAndWait`, modelled with fuel: each recursive step is one
ticker tick at `start + interval`, at which a `Receive` is attempted.
Returns the attempt instants and, when a message was obtained, the instant,
message and resulting store. -/
def ReceiveAndWait (q : Queue) (interval : Nat) (st : Store) (start : Nat) :
    Nat → List Nat × Option (Nat × Message × Store)
  | 0 => ([], none)
  | fuel + 1 =>
    let t := start + interval
    match ReceiveTx q t st with
    | (st2, some m) => ([t], some (t, m, st2))
    | (st2, none) =>
        let rest := ReceiveAndWait q interval st2 t fuel
        (t :: rest.1, rest.2)

/-! ### Job runner: post-callback step (jobs/runner.go)

A Go context is modelled by whether it is cancelled and an optional
deadline.  After the job callback returns, the runner either logs the error
and leaves the message in place, or deletes it under a fresh 1-second
context derived from `context.Background()`, not from the runner's
context. -/

/-- Cancellation/deadline view of a `context.Context`. -/
structure Ctx where
  cancelled : Bool
  deadline : Option Nat
  deriving Repr, DecidableEq

/-- `context.Background()`: never cancelled, no deadline. -/
def backgroundCtx : Ctx := { cancelled := false, deadline := none }

/-- `context.WithTimeout(parent, d)` at instant `now`. -/
def withTimeout (parent : Ctx) (now d : Nat) : Ctx :=
  { cancelled := parent.cancelled, deadline := some (now + d) }

/-- One second, in the millisecond timestamps of the model. -/
def timeSecond : Nat := 1000

/-- Tail of the job goroutine in `receiveAndRun` once the callback has
returned: on error, log and return without deleting; on success, delete the
message under `context.WithTimeout(context.Background(), time.Second)`.
Returns the resulting store and the context used for the delete, if any. -/
def afterJobRun (q : Queue) (st : Store) (mId : Nat) (cbErr : Option String)
    (runnerCtx : Ctx) (now : Nat) : Store × Option Ctx :=
  match cbErr with
  | some _ => (st, none)
  | none =>
      let deleteCtx := withTimeout backgroundCtx now timeSecond
      (DeleteTx q mId st, some deleteCtx)

/-! ### Sequences of queue operations

For the temporal claims we close the engine's transaction-scoped operations
under sequencing.  Each operation records the queue configuration it is
issued on and the instant at which it runs; a send also records the id and
`created` stamp generated by the storage layer.  A panicking send or extend
(negative delay) leaves the store unchanged, as the transaction rolls
back. -/

/-- One queue-engine operation. -/
inductive Op where
  | send (q : Queue) (now fresh created : Nat) (m : Message)
  | receive (q : Queue) (now : Nat)
  | extend (q : Queue) (now : Nat) (id : Nat) (delay : Int)
  | delete (q : Queue) (id : Nat)
  deriving Repr, DecidableEq

/-- Effect of one operation on the store. -/
def applyOp (st : Store) : Op → Store
  | .send q now fresh created m =>
      match SendAndGetIDTx q now fresh created m st with
      | .ok (st2, _) => st2
      | .error _ => st
  | .receive q now => (ReceiveTx q now st).1
  | .extend q now id delay =>
      match ExtendTx q now id delay st with
      | .ok st2 => st2
      | .error _ => st
  | .delete q id => DeleteTx q id st

/-- Effect of a sequence of operations, first operation first. -/
def execOps (st : Store) : List Op → Store
  | [] => st
  | op :: ops => execOps (applyOp st op) ops

/-- The rows carrying id `i` (the schema declares `id` a primary key, so a
well-formed store has at most one). -/
def rowsOf (i : Nat) (st : Store) : Store :=
  st.filter fun r => r.id == i

/-- Side conditions on one operation for reasoning about the message with
id `i` on the queue configured as `q`: a send does not reuse id `i` (ids are
storage-generated and unique), and a receive issued under the same queue name
uses the same max receive count (a queue has one configuration). -/
def opOkB (q : Queue) (i : Nat) : Op → Bool
  | .send _ _ fresh _ _ => fresh != i
  | .receive q2 _ => !(q2.name == q.name) || (q2.maxReceive == q.maxReceive)
  | _ => true

/-- True when the operation is not a delete of id `i`. -/
def noDeleteOfB (i : Nat) : Op → Bool
  | .delete _ j => j != i
  | _ => true

/-- True when the operation is a receive. -/
def isReceiveB : Op → Bool
  | .receive _ _ => true
  | _ => false

/-! ## Lemmas about the claiming subquery -/

theorem keyLt_irrefl (a : Row) : ¬ keyLt a a := by
  unfold keyLt; omega

theorem keyLt_trans {a b c : Row} (h1 : keyLt a b) (h2 : keyLt b c) : keyLt a c := by
  unfold keyLt at *; omega

theorem keyLt_of_not_of_lt {a b c : Row} (h1 : ¬ keyLt b a) (h2 : keyLt b c) : keyLt a c := by
  unfold keyLt at *; omega

theorem select1_mem (l : List Row) (a : Row) : select1 a l = a ∨ select1 a l ∈ l := by
  induction l generalizing a with
  | nil => left; rfl
  | cons r rs ih =>
      simp only [select1]
      rcases ih (if keyLt r a then r else a) with h | h
      · by_cases hk : keyLt r a
        · right; rw [h, if_pos hk]; exact List.mem_cons_self r rs
        · left; rw [h, if_neg hk]
      · right; exact List.mem_cons_of_mem r h

theorem select1_best (l : List Row) (a : Row) :
    ∀ y, (y = a ∨ y ∈ l) → ¬ keyLt y (select1 a l) := by
  induction l generalizing a with
  | nil =>
      intro y hy
      rcases hy with rfl | h
      · simpa [select1] using keyLt_irrefl y
      · cases h
  | cons r rs ih =>
      intro y hy
      simp only [select1]
      by_cases hk : keyLt r a
      · rw [if_pos hk]
        rcases hy with heq | h
        · subst heq
          intro hcon
          exact ih r r (Or.inl rfl) (keyLt_trans hk hcon)
        · rcases List.mem_cons.mp h with heq2 | h2
          · subst heq2
            exact ih y y (Or.inl rfl)
          · exact ih r y (Or.inr h2)
      · rw [if_neg hk]
        rcases hy with heq | h
        · subst heq
          exact ih y y (Or.inl rfl)
        · rcases List.mem_cons.mp h with heq2 | h2
          · subst heq2
            intro hcon
            exact ih a a (Or.inl rfl) (keyLt_of_not_of_lt hk hcon)
          · exact ih a y (Or.inr h2)

theorem selectMsg_eq_none_iff (q : Queue) (now : Nat) (st : Store) :
    selectMsg q now st = none ↔ ∀ r ∈ st, claimableB q now r = false := by
  unfold selectMsg
  rcases hf : st.filter (claimableB q now) with _ | ⟨r, rs⟩
  · simp only [true_iff]
    intro r hr
    have := (List.filter_eq_nil_iff.mp hf) r hr
    simpa using this
  · simp only [reduceCtorEq, false_iff]
    intro hall
    have hr : r ∈ st.filter (claimableB q now) := by rw [hf]; exact List.mem_cons_self r rs
    have := List.mem_filter.mp hr
    rw [hall r this.1] at this
    exact Bool.false_ne_true this.2

theorem selectMsg_mem {q : Queue} {now : Nat} {st : Store} {r : Row}
    (h : selectMsg q now st = some r) : r ∈ st ∧ claimableB q now r = true := by
  unfold selectMsg at h
  rcases hf : st.filter (claimableB q now) with _ | ⟨r0, rs⟩
  · rw [hf] at h; cases h
  · rw [hf] at h
    have hsel : select1 r0 rs = r := by injection h
    have hmem : r ∈ st.filter (claimableB q now) := by
      rw [hf]
      rcases select1_mem rs r0 with h1 | h1
      · rw [← hsel, h1]; exact List.mem_cons_self r0 rs
      · rw [← hsel]; exact List.mem_cons_of_mem r0 h1
    exact And.intro (List.mem_filter.mp hmem).1 (List.mem_filter.mp hmem).2

theorem selectMsg_best {q : Queue} {now : Nat} {st : Store} {r : Row}
    (h : selectMsg q now st = some r) :
    ∀ y ∈ st, claimableB q now y = true → ¬ keyLt y r := by
  intro y hy hcy
  unfold selectMsg at h
  rcases hf : st.filter (claimableB q now) with _ | ⟨r0, rs⟩
  · rw [hf] at h; cases h
  · rw [hf] at h
    have hsel : select1 r0 rs = r := by injection h
    have hyf : y ∈ st.filter (claimableB q now) := List.mem_filter.mpr ⟨hy, hcy⟩
    rw [hf] at hyf
    rw [← hsel]
    exact select1_best rs r0 y (List.mem_cons.mp hyf)

/-- The claimability test of `ReceiveTx`, spelled out. -/
theorem claimableB_iff (q : Queue) (now : Nat) (r : Row) :
    claimableB q now r = true ↔
      (r.queue = q.name ∧ r.timeout ≤ now ∧ r.received < q.maxReceive) := by
  simp [claimableB, and_assoc]

/-! ## Lifecycle of a single message under sequences of operations -/

theorem mem_of_length_le_one {α : Type} {l : List α} (h : l.length ≤ 1)
    {a b : α} (ha : a ∈ l) (hb : b ∈ l) : a = b := by
  match l with
  | [] => cases ha
  | [x] =>
      rw [List.mem_singleton] at ha hb
      rw [ha, hb]
  | x :: y :: rest => simp at h

theorem rowsOf_map (i : Nat) (f : Row → Row) (hf : ∀ r, (f r).id = r.id)
    (st : Store) : rowsOf i (st.map f) = (rowsOf i st).map f := by
  unfold rowsOf
  rw [List.filter_map]
  congr 1
  apply List.filter_congr
  intro r _
  simp [hf r]

theorem rowsOf_append (i : Nat) (st st2 : Store) :
    rowsOf i (st ++ st2) = rowsOf i st ++ rowsOf i st2 :=
  List.filter_append st st2

theorem rowsOf_delete (q2 : Queue) (j i : Nat) (st : Store) (hji : j ≠ i) :
    rowsOf i (DeleteTx q2 j st) = rowsOf i st := by
  unfold rowsOf DeleteTx
  rw [List.filter_filter]
  apply List.filter_congr
  intro r _
  by_cases hid : r.id = i
  · have hij : ¬ i = j := fun h => hji h.symm
    have : (r.id == j) = false := by simp [hid]; omega
    simp [hid, this, hij]
  · simp [hid]

theorem claimUpdate_id (q : Queue) (now selId : Nat) (r : Row) :
    (claimUpdate q now selId r).id = r.id := by
  unfold claimUpdate
  by_cases h : (r.id == selId) = true
  · rw [if_pos h]
  · rw [if_neg h]

/-- `ReceiveTx` either leaves the store unchanged or maps `claimUpdate` over
it for some selected claimable row. -/
theorem receiveTx_store_cases (q : Queue) (now : Nat) (st : Store) :
    (ReceiveTx q now st).1 = st
    ∨ ∃ sel ∈ st, claimableB q now sel = true
        ∧ (ReceiveTx q now st).1 = st.map (claimUpdate q now sel.id) := by
  unfold ReceiveTx
  rcases hsel : selectMsg q now st with _ | sel
  · left; rfl
  · right
    exact ⟨sel, (selectMsg_mem hsel).1, (selectMsg_mem hsel).2, rfl⟩

/-- The row a non-absent received message is populated from: a member of the
store, claimable, with the message's id. -/
theorem receiveTx_source {q : Queue} {now : Nat} {st st2 : Store} {m : Message}
    (hrec : ReceiveTx q now st = (st2, some m)) :
    ∃ sel ∈ st, claimableB q now sel = true ∧ sel.id = m.ID := by
  unfold ReceiveTx at hrec
  rcases hsel : selectMsg q now st with _ | sel
  · simp only [hsel] at hrec
    exact absurd (congrArg Prod.snd hrec) (by simp)
  · simp only [hsel] at hrec
    have h2 := congrArg Prod.snd hrec
    simp only at h2
    injection h2 with h3
    have hm : m.ID = sel.id := by rw [← h3]
    exact ⟨sel, (selectMsg_mem hsel).1, (selectMsg_mem hsel).2, hm.symm⟩


/-- C1: if some row of the queue is claimable, `ReceiveTx` returns the
claimable row of highest priority (ties broken by oldest `created`), sets its
timeout to `now` plus the lease duration, increments its received count by
exactly one, leaves every other row unchanged, and returns its id and body;
if no row is claimable it returns the absent result with the store
unchanged. -/
theorem receiveTx_correct (q : Queue) (now : Nat) (st : Store) :
    ((∀ r ∈ st, claimableB q now r = false) → ReceiveTx q now st = (st, none))
    ∧ (∀ r0 ∈ st, claimableB q now r0 = true →
        ∃ sel st2, sel ∈ st ∧ claimableB q now sel = true
          ∧ (∀ y ∈ st, claimableB q now y = true → ¬ keyLt y sel)
          ∧ ReceiveTx q now st = (st2, some { ID := sel.id, Body := sel.body, Delay := 0, Priority := 0 })
          ∧ st2.length = st.length
          ∧ (∀ (i : Nat) (x : Row), st[i]? = some x →
              ∃ x2, st2[i]? = some x2
                ∧ x2.id = x.id ∧ x2.queue = x.queue ∧ x2.body = x.body
                ∧ x2.created = x.created ∧ x2.priority = x.priority
                ∧ (x.id = sel.id → x2.timeout = now + q.timeout ∧ x2.received = x.received + 1)
                ∧ (x.id ≠ sel.id → x2 = x))) := by
  constructor
  · intro hnone
    have hsel : selectMsg q now st = none := (selectMsg_eq_none_iff q now st).mpr hnone
    unfold ReceiveTx
    rw [hsel]
  · intro r0 hr0 hc0
    rcases hsel : selectMsg q now st with _ | sel
    · exfalso
      have := (selectMsg_eq_none_iff q now st).mp hsel r0 hr0
      rw [hc0] at this
      exact Bool.noConfusion this
    · refine ⟨sel, st.map (claimUpdate q now sel.id), (selectMsg_mem hsel).1,
        (selectMsg_mem hsel).2, selectMsg_best hsel, ?_, by simp, ?_⟩
      · unfold ReceiveTx
        rw [hsel]
      · intro i x hx
        refine ⟨claimUpdate q now sel.id x, ?_, ?_⟩
        · rw [List.getElem?_map, hx]
          rfl
        · unfold claimUpdate
          by_cases hid : x.id = sel.id
          · rw [if_pos (beq_iff_eq.mpr hid)]
            exact ⟨rfl, rfl, rfl, rfl, rfl, fun _ => ⟨rfl, rfl⟩, fun hne => absurd hid hne⟩
          · rw [if_neg (by simpa using hid)]
            exact ⟨rfl, rfl, rfl, rfl, rfl, fun heq => absurd heq hid, fun _ => rfl⟩

/-- Concrete instance of `receiveTx_correct`: a store whose rows are all
still leased (timeout in the future) yields the absent result unchanged. -/
theorem receiveTx_correct_witness :
    (∀ r ∈ [{ id := 1, queue := "q", body := [7], created := 0, timeout := 900,
              received := 0, priority := 0 : Row }],
        claimableB { name := "q", maxReceive := 3, timeout := 5000 } 500 r = false)
    ∧ ReceiveTx { name := "q", maxReceive := 3, timeout := 5000 } 500
        [{ id := 1, queue := "q", body := [7], created := 0, timeout := 900,
           received := 0, priority := 0 : Row }]
      = ([{ id := 1, queue := "q", body := [7], created := 0, timeout := 900,
            received := 0, priority := 0 : Row }], none) :=
  ⟨by decide,
   (receiveTx_correct { name := "q", maxReceive := 3, timeout := 5000 } 500
      [{ id := 1, queue := "q", body := [7], created := 0, timeout := 900,
         received := 0, priority := 0 : Row }]).1 (by decide)⟩

/-- C2: a row is eligible to be claimed by `ReceiveTx` on queue `q` iff its
`queue` field equals the queue's name, its timeout has passed and its
received count is below the queue's max receive count; consequently the row
a returned message came from satisfies all three conditions, and a message
sent to a differently named queue is never returned. -/
theorem receive_claimability (q : Queue) (now : Nat) (st st2 : Store) (m : Message)
    (hrec : ReceiveTx q now st = (st2, some m))
    (hnd : (st.map Row.id).Nodup) :
    (∀ r : Row, claimableB q now r = true ↔
        (r.queue = q.name ∧ r.timeout ≤ now ∧ r.received < q.maxReceive))
    ∧ (∀ r ∈ st, r.id = m.ID →
        (r.queue = q.name ∧ r.timeout ≤ now ∧ r.received < q.maxReceive))
    ∧ (∀ r ∈ st, r.queue ≠ q.name → r.id ≠ m.ID) := by
  rcases receiveTx_source hrec with ⟨sel, hselmem, hselc, hselid⟩
  refine ⟨claimableB_iff q now, ?_, ?_⟩
  · intro r hr hid
    have : r = sel :=
      List.inj_on_of_nodup_map hnd hr hselmem (by rw [hid, hselid])
    rw [this]
    exact (claimableB_iff q now sel).mp hselc
  · intro r hr hq hid
    have : r = sel :=
      List.inj_on_of_nodup_map hnd hr hselmem (by rw [hid, hselid])
    rw [this] at hq
    exact hq ((claimableB_iff q now sel).mp hselc).1

/-- Concrete instance of `receive_claimability`: a store holding one row for
queue `a` and one for queue `b`; receiving on `b` returns the `b` row, and
the `a` row can never be the source of the returned message. -/
theorem receive_claimability_witness :
    ReceiveTx { name := "b", maxReceive := 3, timeout := 100 } 50
        [{ id := 1, queue := "a", body := [1], created := 0, timeout := 0,
           received := 0, priority := 0 : Row },
         { id := 2, queue := "b", body := [2], created := 1, timeout := 0,
           received := 0, priority := 0 : Row }]
      = ([{ id := 1, queue := "a", body := [1], created := 0, timeout := 0,
            received := 0, priority := 0 : Row },
          { id := 2, queue := "b", body := [2], created := 1, timeout := 150,
            received := 1, priority := 0 : Row }],
         some { ID := 2, Body := [2], Delay := 0, Priority := 0 })
    ∧ (∀ r ∈ [{ id := 1, queue := "a", body := [1], created := 0, timeout := 0,
                received := 0, priority := 0 : Row },
              { id := 2, queue := "b", body := [2], created := 1, timeout := 0,
                received := 0, priority := 0 : Row }],
        r.queue ≠ "b" → r.id ≠ 2) :=
  ⟨by decide,
   (receive_claimability { name := "b", maxReceive := 3, timeout := 100 } 50
      [{ id := 1, queue := "a", body := [1], created := 0, timeout := 0,
         received := 0, priority := 0 : Row },
       { id := 2, queue := "b", body := [2], created := 1, timeout := 0,
         received := 0, priority := 0 : Row }]
      [{ id := 1, queue := "a", body := [1], created := 0, timeout := 0,
         received := 0, priority := 0 : Row },
       { id := 2, queue := "b", body := [2], created := 1, timeout := 150,
         received := 1, priority := 0 : Row }]
      { ID := 2, Body := [2], Delay := 0, Priority := 0 }
      (by decide) (by decide)).2.2⟩

/-- C9: a non-absent message returned by `ReceiveTx` is populated only from
the stored row's id and body; its `Delay` and `Priority` fields are the Go
zero value regardless of the priority the row was stored with. -/
theorem receive_message_fields (q : Queue) (now : Nat) (st st2 : Store) (m : Message)
    (hrec : ReceiveTx q now st = (st2, some m)) :
    m.Delay = 0 ∧ m.Priority = 0 ∧ ∃ r ∈ st, r.id = m.ID ∧ r.body = m.Body := by
  unfold ReceiveTx at hrec
  rcases hsel : selectMsg q now st with _ | sel
  · simp only [hsel] at hrec
    exact absurd (congrArg Prod.snd hrec) (by simp)
  · simp only [hsel] at hrec
    have h2 := congrArg Prod.snd hrec
    simp only at h2
    injection h2 with h3
    have hm : m = { ID := sel.id, Body := sel.body, Delay := 0, Priority := 0 } := h3.symm
    rw [hm]
    exact ⟨rfl, rfl, sel, (selectMsg_mem hsel).1, rfl, rfl⟩

/-- Concrete instance of `receive_message_fields`: a message stored with
priority 9 and a delayed timeout is returned with `Delay` and `Priority`
both zero. -/
theorem receive_message_fields_witness :
    ReceiveTx { name := "q", maxReceive := 3, timeout := 100 } 50
        [{ id := 4, queue := "q", body := [9, 9], created := 0, timeout := 0,
           received := 0, priority := 9 : Row }]
      = ([{ id := 4, queue := "q", body := [9, 9], created := 0, timeout := 150,
            received := 1, priority := 9 : Row }],
         some { ID := 4, Body := [9, 9], Delay := 0, Priority := 0 })
    ∧ ({ ID := 4, Body := [9, 9], Delay := 0, Priority := 0 : Message }.Delay = 0
        ∧ { ID := 4, Body := [9, 9], Delay := 0, Priority := 0 : Message }.Priority = 0
        ∧ ∃ r ∈ [{ id := 4, queue := "q", body := [9, 9], created := 0, timeout := 0,
                   received := 0, priority := 9 : Row }],
             r.id = ({ ID := 4, Body := [9, 9], Delay := 0, Priority := 0 : Message }).ID
             ∧ r.body = ({ ID := 4, Body := [9, 9], Delay := 0, Priority := 0 : Message }).Body) :=
  ⟨by decide,
   receive_message_fields { name := "q", maxReceive := 3, timeout := 100 } 50
      [{ id := 4, queue := "q", body := [9, 9], created := 0, timeout := 0,
         received := 0, priority := 9 : Row }]
      [{ id := 4, queue := "q", body := [9, 9], created := 0, timeout := 150,
         received := 1, priority := 9 : Row }]
      { ID := 4, Body := [9, 9], Delay := 0, Priority := 0 }
      (by decide)⟩

/-- C4: the transactional wrapper rolls back and surfaces the unit's
original error on failure (a compound error naming both failures when the
rollback itself fails), rolls back and re-propagates the same panic value on
a panic, commits on success, and reports a failing commit as a commit
error. -/
theorem inTx_correct {σ : Type} (commitFail rollbackFail : Option String)
    (db : σ) (cb : σ → CbResult σ) :
    (∀ tx e, cb db = .ret tx (some e) →
        InTx none commitFail rollbackFail db cb
          = .normal db (rollbackErrOf rollbackFail (some e))
        ∧ (rollbackFail = none → rollbackErrOf rollbackFail (some e) = some e)
        ∧ (∀ te, rollbackFail = some te →
            rollbackErrOf rollbackFail (some e)
              = some ("cannot roll back tx after error (tx error: " ++ te
                      ++ "), original error: " ++ e)))
    ∧ (∀ v, cb db = .panicked v →
        InTx none commitFail rollbackFail db cb = .panicOut db v)
    ∧ (∀ tx, cb db = .ret tx none → commitFail = none →
        InTx none commitFail rollbackFail db cb = .normal tx none)
    ∧ (∀ tx e, cb db = .ret tx none → commitFail = some e →
        InTx none commitFail rollbackFail db cb
          = .normal db (some ("cannot commit tx: " ++ e))) := by
  refine ⟨?_, ?_, ?_, ?_⟩
  · intro tx e hcb
    refine ⟨by simp [InTx, hcb], ?_, ?_⟩
    · intro hrb
      simp [rollbackErrOf, hrb]
    · intro te hrb
      simp [rollbackErrOf, hrb, Option.getD]
  · intro v hcb
    simp [InTx, hcb]
  · intro tx hcb hcf
    simp [InTx, hcb, hcf]
  · intro tx e hcb hcf
    simp [InTx, hcb, hcf]

/-- Concrete instance of `inTx_correct`: over a `Nat` database, a unit that
returns the error `"boom"` after writing 42 leaves the database at its
original value 0 and surfaces `"boom"`. -/
theorem inTx_correct_witness :
    ((fun _ : Nat => CbResult.ret 42 (some "boom")) 0 = CbResult.ret 42 (some "boom"))
    ∧ InTx (σ := Nat) none none none 0 (fun _ => .ret 42 (some "boom"))
        = .normal 0 (rollbackErrOf none (some "boom")) :=
  ⟨rfl,
   ((inTx_correct (σ := Nat) none none 0 (fun _ => .ret 42 (some "boom"))).1
      42 "boom" rfl).1⟩

/-- C5: a send or extend with negative delay aborts with a panic (modelled
as an error value) before any store access, so wrapped in `InTx` the store
is unchanged and the panic is re-propagated; with a non-negative delay this
branch is unreachable and the operation returns normally. -/
theorem negative_delay_rejected (q : Queue) (now newId newCreated : Nat)
    (m : Message) (id : Nat) (delay : Int) (st : Store) :
    (m.Delay < 0 →
        SendAndGetIDTx q now newId newCreated m st = .error "delay cannot be negative"
        ∧ InTx none none none st
            (fun s => match SendAndGetIDTx q now newId newCreated m s with
              | .error v => .panicked v
              | .ok (st2, _) => .ret st2 none)
          = .panicOut st "delay cannot be negative")
    ∧ (0 ≤ m.Delay → ∃ st2 rid,
        SendAndGetIDTx q now newId newCreated m st = .ok (st2, rid))
    ∧ (delay < 0 →
        ExtendTx q now id delay st = .error "delay cannot be negative"
        ∧ InTx none none none st
            (fun s => match ExtendTx q now id delay s with
              | .error v => .panicked v
              | .ok st2 => .ret st2 none)
          = .panicOut st "delay cannot be negative")
    ∧ (0 ≤ delay → ∃ st2, ExtendTx q now id delay st = .ok st2) := by
  refine ⟨?_, ?_, ?_, ?_⟩
  · intro hneg
    constructor
    · simp [SendAndGetIDTx, hneg]
    · simp [InTx, SendAndGetIDTx, hneg]
  · intro hpos
    exact ⟨st ++ [{ id := newId, queue := q.name, body := m.Body, created := newCreated,
                    timeout := now + m.Delay.toNat, received := 0, priority := m.Priority }],
           newId, by simp [SendAndGetIDTx, not_lt.mpr hpos]⟩
  · intro hneg
    constructor
    · simp [ExtendTx, hneg]
    · simp [InTx, ExtendTx, hneg]
  · intro hpos
    exact ⟨st.map fun r =>
             if r.queue == q.name && r.id == id then { r with timeout := now + delay.toNat } else r,
           by simp [ExtendTx, not_lt.mpr hpos]⟩

/-- Concrete instance of `negative_delay_rejected`: sending a message with
delay −1 into an empty store propagates the panic and leaves the store
empty. -/
theorem negative_delay_rejected_witness :
    (({ ID := 0, Body := [], Delay := -1, Priority := 0 : Message }).Delay < 0)
    ∧ SendAndGetIDTx { name := "q", maxReceive := 3, timeout := 100 } 0 1 0
        { ID := 0, Body := [], Delay := -1, Priority := 0 } []
      = .error "delay cannot be negative" :=
  ⟨by decide,
   ((negative_delay_rejected { name := "q", maxReceive := 3, timeout := 100 } 0 1 0
      { ID := 0, Body := [], Delay := -1, Priority := 0 } 0 0 []).1 (by decide)).1⟩

/-- The keep-condition of `DeleteTx`, spelled out. -/
theorem delete_keep_iff (q : Queue) (id : Nat) (r : Row) :
    (!(r.queue == q.name && r.id == id)) = true ↔ ¬(r.queue = q.name ∧ r.id = id) := by
  by_cases h1 : r.queue = q.name <;> by_cases h2 : r.id = id <;> simp [h1, h2]

/-- C6: `DeleteTx` removes exactly the rows matching the queue name and id,
keeps every other row, is idempotent, and deleting an absent id leaves the
store entirely unchanged. -/
theorem deleteTx_correct (q : Queue) (id : Nat) (st : Store) :
    (∀ r ∈ DeleteTx q id st, ¬(r.queue = q.name ∧ r.id = id))
    ∧ (∀ r ∈ st, ¬(r.queue = q.name ∧ r.id = id) → r ∈ DeleteTx q id st)
    ∧ DeleteTx q id (DeleteTx q id st) = DeleteTx q id st
    ∧ ((∀ r ∈ st, ¬(r.queue = q.name ∧ r.id = id)) → DeleteTx q id st = st) := by
  refine ⟨?_, ?_, ?_, ?_⟩
  · intro r hr
    exact (delete_keep_iff q id r).mp (List.mem_filter.mp hr).2
  · intro r hr hno
    exact List.mem_filter.mpr ⟨hr, (delete_keep_iff q id r).mpr hno⟩
  · unfold DeleteTx
    rw [List.filter_filter]
    congr 1
    funext r
    cases h : (!(r.queue == q.name && r.id == id)) <;> simp [h]
  · intro hno
    exact List.filter_eq_self.mpr fun r hr => (delete_keep_iff q id r).mpr (hno r hr)

/-- Concrete instance of `deleteTx_correct`: deleting id 5 twice from a
two-row store equals deleting it once. -/
theorem deleteTx_correct_witness :
    DeleteTx { name := "q", maxReceive := 3, timeout := 100 } 5
        (DeleteTx { name := "q", maxReceive := 3, timeout := 100 } 5
          [{ id := 5, queue := "q", body := [], created := 0, timeout := 0,
             received := 0, priority := 0 : Row },
           { id := 6, queue := "q", body := [], created := 1, timeout := 0,
             received := 0, priority := 0 : Row }])
      = DeleteTx { name := "q", maxReceive := 3, timeout := 100 } 5
          [{ id := 5, queue := "q", body := [], created := 0, timeout := 0,
             received := 0, priority := 0 : Row },
           { id := 6, queue := "q", body := [], created := 1, timeout := 0,
             received := 0, priority := 0 : Row }] :=
  (deleteTx_correct { name := "q", maxReceive := 3, timeout := 100 } 5
    [{ id := 5, queue := "q", body := [], created := 0, timeout := 0,
       received := 0, priority := 0 : Row },
     { id := 6, queue := "q", body := [], created := 1, timeout := 0,
       received := 0, priority := 0 : Row }]).2.2.1

/-- C7: with a non-negative delay, `ExtendTx` succeeds, sets the timeout of
every row matching the queue name and id to `now + delay` (counted from the
extend call), leaves all other fields and all other rows unchanged, checks
nothing about the row's received count or lease, and the extended row is not
claimable again before `now + delay`. -/
theorem extendTx_correct (q : Queue) (now : Nat) (id : Nat) (delay : Int)
    (st : Store) (hd : 0 ≤ delay) :
    ∃ st2, ExtendTx q now id delay st = .ok st2
      ∧ st2.length = st.length
      ∧ (∀ (i : Nat) (x : Row), st[i]? = some x →
          ∃ x2, st2[i]? = some x2
            ∧ x2.id = x.id ∧ x2.queue = x.queue ∧ x2.body = x.body
            ∧ x2.created = x.created ∧ x2.received = x.received ∧ x2.priority = x.priority
            ∧ (x.queue = q.name ∧ x.id = id → x2.timeout = now + delay.toNat)
            ∧ (¬(x.queue = q.name ∧ x.id = id) → x2 = x))
      ∧ (∀ r2 ∈ st2, r2.queue = q.name → r2.id = id →
          ∀ t : Nat, t < now + delay.toNat → claimableB q t r2 = false) := by
  have hok : ExtendTx q now id delay st
      = .ok (st.map fun r =>
          if r.queue == q.name && r.id == id then { r with timeout := now + delay.toNat } else r) := by
    simp [ExtendTx, not_lt.mpr hd]
  refine ⟨_, hok, by simp, ?_, ?_⟩
  · intro i x hx
    refine ⟨_, by rw [List.getElem?_map, hx]; rfl, ?_⟩
    dsimp only
    by_cases hm : x.queue = q.name ∧ x.id = id
    · rw [if_pos (by simp [hm.1, hm.2])]
      exact ⟨rfl, rfl, rfl, rfl, rfl, rfl, fun _ => rfl, fun hno => absurd hm hno⟩
    · rw [if_neg (by simpa using hm)]
      exact ⟨rfl, rfl, rfl, rfl, rfl, rfl, fun h => absurd h hm, fun _ => rfl⟩
  · intro r2 hr2 hq2 hid2 t ht
    rcases List.mem_map.mp hr2 with ⟨x, hxmem, hxeq⟩
    by_cases hm : (x.queue == q.name && x.id == id) = true
    · rw [if_pos hm] at hxeq
      have htimeout : r2.timeout = now + delay.toNat := by rw [← hxeq]
      simp only [claimableB, htimeout]
      have : ¬ (now + delay.toNat ≤ t) := by omega
      simp [this]
    · exfalso
      rw [if_neg hm] at hxeq
      rw [← hxeq] at hq2 hid2
      simp [hq2, hid2] at hm

/-- Concrete instance of `extendTx_correct`: extending id 5 by 100 at
instant 10 gives it timeout 110; before instant 110 the row is not
claimable. -/
theorem extendTx_correct_witness :
    (0 : Int) ≤ 100
    ∧ ∃ st2, ExtendTx { name := "q", maxReceive := 3, timeout := 7 } 10 5 100
          [{ id := 5, queue := "q", body := [], created := 0, timeout := 0,
             received := 1, priority := 0 : Row }]
        = .ok st2
        ∧ st2.length = 1 := by
  refine ⟨by decide, ?_⟩
  rcases extendTx_correct { name := "q", maxReceive := 3, timeout := 7 } 10 5 100
      [{ id := 5, queue := "q", body := [], created := 0, timeout := 0,
         received := 1, priority := 0 : Row }] (by decide) with ⟨st2, hok, hlen, _⟩
  exact ⟨st2, hok, hlen⟩

/-- C8: after the job callback returns, the runner deletes the claimed
message exactly when the callback succeeded, using a fresh context bounded
by a 1-second timeout and independent of the runner's (possibly cancelled)
context; on a callback error the store is left unchanged so the message is
redelivered after its lease expires. -/
theorem afterJobRun_correct (q : Queue) (st : Store) (mId : Nat)
    (cbErr : Option String) (c1 c2 : Ctx) (now : Nat) :
    afterJobRun q st mId cbErr c1 now = afterJobRun q st mId cbErr c2 now
    ∧ (∀ e, cbErr = some e → afterJobRun q st mId cbErr c1 now = (st, none))
    ∧ (cbErr = none →
        afterJobRun q st mId cbErr c1 now
          = (DeleteTx q mId st,
             some { cancelled := false, deadline := some (now + timeSecond) })) := by
  refine ⟨?_, ?_, ?_⟩
  · cases cbErr <;> rfl
  · intro e he
    rw [he]
    rfl
  · intro he
    rw [he]
    rfl

/-- Concrete instance of `afterJobRun_correct`: with the runner's context
already cancelled, a successful callback still deletes the message under the
fresh never-cancelled 1-second context. -/
theorem afterJobRun_correct_witness :
    afterJobRun { name := "q", maxReceive := 3, timeout := 100 } [] 5 none
        { cancelled := true, deadline := none } 40
      = (DeleteTx { name := "q", maxReceive := 3, timeout := 100 } 5 [],
         some { cancelled := false, deadline := some (40 + timeSecond) }) :=
  (afterJobRun_correct { name := "q", maxReceive := 3, timeout := 100 } [] 5 none
    { cancelled := true, deadline := none }
    { cancelled := false, deadline := none } 40).2.2 rfl

/-- C10: `ReceiveAndWait` makes its first receive attempt no earlier than
one full interval after the call, even when a claimable message is already
present; consecutive attempts are at least one interval apart; a returned
message was obtained at one of the attempt instants. -/
theorem receiveAndWait_timing (q : Queue) (interval : Nat) (st : Store)
    (start fuel : Nat) :
    (∀ t ∈ (ReceiveAndWait q interval st start fuel).1, start + interval ≤ t)
    ∧ List.Chain' (fun a b => a + interval ≤ b) (ReceiveAndWait q interval st start fuel).1
    ∧ (∀ (t : Nat) (m : Message) (st2 : Store),
        (ReceiveAndWait q interval st start fuel).2 = some (t, m, st2) →
        start + interval ≤ t ∧ t ∈ (ReceiveAndWait q interval st start fuel).1) := by
  induction fuel generalizing st start with
  | zero =>
      refine ⟨?_, ?_, ?_⟩
      · intro t ht
        cases ht
      · exact List.chain'_nil
      · intro t m st2 h
        cases h
  | succ fuel ih =>
      rcases hrec : ReceiveTx q (start + interval) st with ⟨stA, om⟩
      rcases om with _ | m0
      · have hstep : ReceiveAndWait q interval st start (fuel + 1)
            = ((start + interval) :: (ReceiveAndWait q interval stA (start + interval) fuel).1,
               (ReceiveAndWait q interval stA (start + interval) fuel).2) := by
          simp only [ReceiveAndWait, hrec]
        rcases ih stA (start + interval) with ⟨ihall, ihchain, ihres⟩
        refine ⟨?_, ?_, ?_⟩
        · intro t ht
          rw [hstep] at ht
          rcases List.mem_cons.mp ht with heq | hmem
          · omega
          · have := ihall t hmem
            omega
        · rw [hstep]
          refine List.chain'_cons'.mpr ⟨?_, ihchain⟩
          intro y hy
          have : y ∈ (ReceiveAndWait q interval stA (start + interval) fuel).1 :=
            List.mem_of_mem_head? hy
          exact ihall y this
        · intro t m st2 h
          rw [hstep] at h
          have hr := ihres t m st2 h
          rw [hstep]
          exact ⟨by omega, List.mem_cons_of_mem _ hr.2⟩
      · have hstep : ReceiveAndWait q interval st start (fuel + 1)
            = ([start + interval], some (start + interval, m0, stA)) := by
          simp only [ReceiveAndWait, hrec]
        refine ⟨?_, ?_, ?_⟩
        · intro t ht
          rw [hstep] at ht
          rcases List.mem_cons.mp ht with heq | hmem
          · omega
          · cases hmem
        · rw [hstep]
          exact List.chain'_singleton _
        · intro t m st2 h
          rw [hstep] at h
          simp only at h
          injection h with h3
          have ht : start + interval = t := congrArg Prod.fst h3
          rw [hstep, ← ht]
          exact ⟨le_refl _, List.mem_cons_self _ _⟩

/-- Concrete instance of `receiveAndWait_timing`: a message claimable from
instant 0 is only returned at instant 10, one full interval after the call. -/
theorem receiveAndWait_timing_witness :
    0 + 10 ≤ 10
    ∧ 10 ∈ (ReceiveAndWait { name := "q", maxReceive := 3, timeout := 100 } 10
        [{ id := 1, queue := "q", body := [3], created := 0, timeout := 0,
           received := 0, priority := 0 : Row }] 0 2).1 :=
  (receiveAndWait_timing { name := "q", maxReceive := 3, timeout := 100 } 10
      [{ id := 1, queue := "q", body := [3], created := 0, timeout := 0,
         received := 0, priority := 0 : Row }] 0 2).2.2
    10 { ID := 1, Body := [3], Delay := 0, Priority := 0 }
    [{ id := 1, queue := "q", body := [3], created := 0, timeout := 110,
       received := 1, priority := 0 : Row }] (by decide)

theorem rowsOf_send (q2 : Queue) (i now fresh created : Nat) (m : Message)
    (st : Store) (hfi : fresh ≠ i) :
    rowsOf i (applyOp st (.send q2 now fresh created m)) = rowsOf i st := by
  simp only [applyOp]
  by_cases hneg : m.Delay < 0
  · simp [SendAndGetIDTx, hneg]
  · have hok : SendAndGetIDTx q2 now fresh created m st
        = .ok (st ++ [{ id := fresh, queue := q2.name, body := m.Body, created := created,
                        timeout := now + m.Delay.toNat, received := 0, priority := m.Priority }],
               fresh) := by
      simp [SendAndGetIDTx, hneg]
    rw [hok]
    simp only
    rw [rowsOf_append]
    have hnil : rowsOf i [{ id := fresh, queue := q2.name, body := m.Body, created := created,
                            timeout := now + m.Delay.toNat, received := 0, priority := m.Priority }] = [] := by
      unfold rowsOf
      simp [hfi]
    rw [hnil, List.append_nil]

theorem rowsOf_delete_eq_filter (q2 : Queue) (j i : Nat) (st : Store) :
    rowsOf i (DeleteTx q2 j st)
      = (rowsOf i st).filter fun r => !(r.queue == q2.name && r.id == j) := by
  unfold rowsOf DeleteTx
  rw [List.filter_filter, List.filter_filter]
  apply List.filter_congr
  intro r _
  rw [Bool.and_comm]

theorem rowsOf_extend_cases (q2 : Queue) (i now2 j : Nat) (delay : Int) (st : Store) :
    rowsOf i (applyOp st (.extend q2 now2 j delay)) = rowsOf i st
    ∨ rowsOf i (applyOp st (.extend q2 now2 j delay))
        = (rowsOf i st).map fun r =>
            if r.queue == q2.name && r.id == j then { r with timeout := now2 + delay.toNat } else r := by
  simp only [applyOp]
  by_cases hneg : delay < 0
  · left
    simp [ExtendTx, hneg]
  · right
    have hok : ExtendTx q2 now2 j delay st
        = .ok (st.map fun r =>
            if r.queue == q2.name && r.id == j then { r with timeout := now2 + delay.toNat } else r) := by
      simp [ExtendTx, hneg]
    rw [hok]
    simp only
    apply rowsOf_map
    intro r
    by_cases h : (r.queue == q2.name && r.id == j) = true
    · rw [if_pos h]
    · rw [if_neg h]

theorem rowsOf_receive_cases (q2 : Queue) (i now : Nat) (st : Store) :
    rowsOf i (applyOp st (.receive q2 now)) = rowsOf i st
    ∨ ∃ sel ∈ st, claimableB q2 now sel = true
        ∧ rowsOf i (applyOp st (.receive q2 now))
            = (rowsOf i st).map (claimUpdate q2 now sel.id) := by
  simp only [applyOp]
  rcases receiveTx_store_cases q2 now st with h | ⟨sel, hmem, hc, h⟩
  · left
    rw [h]
  · right
    refine ⟨sel, hmem, hc, ?_⟩
    rw [h]
    exact rowsOf_map i _ (claimUpdate_id q2 now sel.id) st

/-- One operation changes the rows of id `i` as follows: every surviving row
descends from a row with the same id before the step, with the same queue,
with `received` unchanged unless the operation is a receive that claimed it,
in which case `received` grows by exactly one and the source row was
claimable for that receive's configuration. -/
theorem applyOp_rowsOf (q : Queue) (i : Nat) (op : Op) (st : Store)
    (hok : opOkB q i op = true) (hone : (rowsOf i st).length ≤ 1) :
    ∀ r2 ∈ rowsOf i (applyOp st op),
      ∃ r ∈ rowsOf i st,
        r2.id = r.id ∧ r2.queue = r.queue
        ∧ r.received ≤ r2.received ∧ r2.received ≤ r.received + 1
        ∧ (isReceiveB op = false → r2.received = r.received)
        ∧ (r2.received = r.received + 1 →
            ∃ q2 now, op = Op.receive q2 now ∧ r.queue = q2.name ∧ r.timeout ≤ now
              ∧ r.received < q2.maxReceive) := by
  intro r2 hr2
  cases op with
  | send q2 now fresh created m =>
      have hfi : fresh ≠ i := by
        have h := hok
        unfold opOkB at h
        simpa using h
      rw [rowsOf_send q2 i now fresh created m st hfi] at hr2
      exact ⟨r2, hr2, rfl, rfl, le_refl _, by omega, fun _ => rfl,
             fun h2 => absurd h2 (by omega)⟩
  | receive q2 now =>
      rcases rowsOf_receive_cases q2 i now st with h | ⟨sel, hselmem, hselc, h⟩
      · rw [h] at hr2
        exact ⟨r2, hr2, rfl, rfl, le_refl _, by omega, fun _ => rfl,
               fun h2 => absurd h2 (by omega)⟩
      · rw [h] at hr2
        rcases List.mem_map.mp hr2 with ⟨r, hrmem, hreq⟩
        unfold claimUpdate at hreq
        by_cases hid : (r.id == sel.id) = true
        · rw [if_pos hid] at hreq
          have hid2 : r2.id = r.id := by rw [← hreq]
          have hq2eq : r2.queue = r.queue := by rw [← hreq]
          have hrec2 : r2.received = r.received + 1 := by rw [← hreq]
          have hri : r.id = i := by
            have hmf := (List.mem_filter.mp hrmem).2
            simpa using hmf
          have hseli : sel.id = i := by
            have hb := beq_iff_eq.mp hid
            omega
          have hselrows : sel ∈ rowsOf i st :=
            List.mem_filter.mpr ⟨hselmem, by simp [hseli]⟩
          have hrsel : r = sel := mem_of_length_le_one hone hrmem hselrows
          have hc := (claimableB_iff q2 now r).mp (by rw [hrsel]; exact hselc)
          refine ⟨r, hrmem, hid2, hq2eq, by omega, by omega, ?_, ?_⟩
          · intro hfalse
            exact absurd hfalse (by simp [isReceiveB])
          · intro _
            exact ⟨q2, now, rfl, hc.1, hc.2.1, hc.2.2⟩
        · rw [if_neg hid] at hreq
          rw [← hreq]
          exact ⟨r, hrmem, rfl, rfl, le_refl _, by omega, fun _ => rfl,
                 fun h2 => absurd h2 (by omega)⟩
  | extend q2 now2 j delay =>
      rcases rowsOf_extend_cases q2 i now2 j delay st with h | h
      · rw [h] at hr2
        exact ⟨r2, hr2, rfl, rfl, le_refl _, by omega, fun _ => rfl,
               fun h2 => absurd h2 (by omega)⟩
      · rw [h] at hr2
        rcases List.mem_map.mp hr2 with ⟨r, hrmem, hreq⟩
        by_cases hcond : (r.queue == q2.name && r.id == j) = true
        · rw [if_pos hcond] at hreq
          have hid2 : r2.id = r.id := by rw [← hreq]
          have hq2eq : r2.queue = r.queue := by rw [← hreq]
          have hrec2 : r2.received = r.received := by rw [← hreq]
          exact ⟨r, hrmem, hid2, hq2eq, by omega, by omega, fun _ => hrec2,
                 fun h2 => absurd h2 (by omega)⟩
        · rw [if_neg hcond] at hreq
          rw [← hreq]
          exact ⟨r, hrmem, rfl, rfl, le_refl _, by omega, fun _ => rfl,
                 fun h2 => absurd h2 (by omega)⟩
  | delete q2 j =>
      simp only [applyOp] at hr2
      rw [rowsOf_delete_eq_filter q2 j i st] at hr2
      have hmf := List.mem_filter.mp hr2
      exact ⟨r2, hmf.1, rfl, rfl, le_refl _, by omega, fun _ => rfl,
             fun h2 => absurd h2 (by omega)⟩

theorem opOkB_receive {q q2 : Queue} {i now : Nat}
    (hok : opOkB q i (.receive q2 now) = true) (hname : q2.name = q.name) :
    q2.maxReceive = q.maxReceive := by
  unfold opOkB at hok
  simpa [hname] using hok

theorem applyOp_rowsOf_len (q : Queue) (i : Nat) (op : Op) (st : Store)
    (hok : opOkB q i op = true) :
    (rowsOf i (applyOp st op)).length ≤ (rowsOf i st).length := by
  cases op with
  | send q2 now fresh created m =>
      have hfi : fresh ≠ i := by
        have h := hok
        unfold opOkB at h
        simpa using h
      rw [rowsOf_send q2 i now fresh created m st hfi]
  | receive q2 now =>
      rcases rowsOf_receive_cases q2 i now st with h | ⟨sel, _, _, h⟩ <;> rw [h]
      simp
  | extend q2 now2 j delay =>
      rcases rowsOf_extend_cases q2 i now2 j delay st with h | h <;> rw [h]
      simp
  | delete q2 j =>
      simp only [applyOp]
      rw [rowsOf_delete_eq_filter q2 j i st]
      exact List.length_filter_le _ _

theorem applyOp_rowsOf_ne (q : Queue) (i : Nat) (op : Op) (st : Store)
    (hok : opOkB q i op = true) (hnd : noDeleteOfB i op = true)
    (hne : rowsOf i st ≠ []) : rowsOf i (applyOp st op) ≠ [] := by
  cases op with
  | send q2 now fresh created m =>
      have hfi : fresh ≠ i := by
        have h := hok
        unfold opOkB at h
        simpa using h
      rw [rowsOf_send q2 i now fresh created m st hfi]
      exact hne
  | receive q2 now =>
      rcases rowsOf_receive_cases q2 i now st with h | ⟨sel, _, _, h⟩ <;> rw [h]
      · exact hne
      · simpa using hne
  | extend q2 now2 j delay =>
      rcases rowsOf_extend_cases q2 i now2 j delay st with h | h <;> rw [h]
      · exact hne
      · simpa using hne
  | delete q2 j =>
      have hji : j ≠ i := by
        have h := hnd
        unfold noDeleteOfB at h
        simpa using h
      simp only [applyOp]
      rw [rowsOf_delete q2 j i st hji]
      exact hne

theorem execOps_rowsOf_len (q : Queue) (i : Nat) (st : Store) (ops : List Op)
    (hops : ∀ op ∈ ops, opOkB q i op = true) :
    (rowsOf i (execOps st ops)).length ≤ (rowsOf i st).length := by
  induction ops generalizing st with
  | nil => exact le_refl _
  | cons op rest ih =>
      have h1 := applyOp_rowsOf_len q i op st (hops op (List.mem_cons_self op rest))
      have h2 := ih (applyOp st op) fun o ho => hops o (List.mem_cons_of_mem op ho)
      exact le_trans h2 h1

/-- Every row of id `i` surviving a sequence of operations descends from a
row of id `i` in the initial store with a received count no larger. -/
theorem execOps_rowsOf_descend (q : Queue) (i : Nat) (st : Store) (ops : List Op)
    (hops : ∀ op ∈ ops, opOkB q i op = true) (hone : (rowsOf i st).length ≤ 1) :
    ∀ r2 ∈ rowsOf i (execOps st ops), ∃ r ∈ rowsOf i st, r.received ≤ r2.received := by
  induction ops generalizing st with
  | nil =>
      intro r2 hr2
      exact ⟨r2, hr2, le_refl _⟩
  | cons op rest ih =>
      intro r2 hr2
      have hone2 : (rowsOf i (applyOp st op)).length ≤ 1 :=
        le_trans (applyOp_rowsOf_len q i op st (hops op (List.mem_cons_self op rest))) hone
      rcases ih (applyOp st op) (fun o ho => hops o (List.mem_cons_of_mem op ho)) hone2
          r2 hr2 with ⟨rmid, hmid, hle⟩
      rcases applyOp_rowsOf q i op st (hops op (List.mem_cons_self op rest)) hone
          rmid hmid with ⟨r, hr, _, _, hle2, _⟩
      exact ⟨r, hr, le_trans hle2 hle⟩

/-- The bounded-received invariant is preserved by any admissible sequence
of operations. -/
theorem execOps_bound (q : Queue) (i : Nat) (st : Store) (ops : List Op)
    (hops : ∀ op ∈ ops, opOkB q i op = true) (hone : (rowsOf i st).length ≤ 1)
    (hinv : ∀ r ∈ rowsOf i st, r.queue = q.name ∧ r.received ≤ q.maxReceive) :
    ∀ r2 ∈ rowsOf i (execOps st ops), r2.queue = q.name ∧ r2.received ≤ q.maxReceive := by
  induction ops generalizing st with
  | nil => exact hinv
  | cons op rest ih =>
      have hokop := hops op (List.mem_cons_self op rest)
      have hone2 : (rowsOf i (applyOp st op)).length ≤ 1 :=
        le_trans (applyOp_rowsOf_len q i op st hokop) hone
      refine ih (applyOp st op) (fun o ho => hops o (List.mem_cons_of_mem op ho)) hone2 ?_
      intro r2 hr2
      rcases applyOp_rowsOf q i op st hokop hone r2 hr2 with
        ⟨r, hr, _, hqeq, hle, hle1, _, hinc⟩
      rcases hinv r hr with ⟨hrq, hrb⟩
      constructor
      · rw [hqeq, hrq]
      · by_cases hsame : r2.received = r.received + 1
        · rcases hinc hsame with ⟨q2, now, hopx, hq2name, _, hlt⟩
          cases hopx
          have hn : q2.name = q.name := by rw [← hq2name]; exact hrq
          have hmax : q2.maxReceive = q.maxReceive := opOkB_receive hokop hn
          omega
        · omega

/-- The exhausted invariant (right queue, received at or above the cap) is
preserved by any admissible sequence of operations. -/
theorem execOps_exhausted (q : Queue) (i : Nat) (st : Store) (ops : List Op)
    (hops : ∀ op ∈ ops, opOkB q i op = true) (hone : (rowsOf i st).length ≤ 1)
    (hinv : ∀ r ∈ rowsOf i st, r.queue = q.name ∧ q.maxReceive ≤ r.received) :
    ∀ r2 ∈ rowsOf i (execOps st ops), r2.queue = q.name ∧ q.maxReceive ≤ r2.received := by
  induction ops generalizing st with
  | nil => exact hinv
  | cons op rest ih =>
      have hokop := hops op (List.mem_cons_self op rest)
      have hone2 : (rowsOf i (applyOp st op)).length ≤ 1 :=
        le_trans (applyOp_rowsOf_len q i op st hokop) hone
      refine ih (applyOp st op) (fun o ho => hops o (List.mem_cons_of_mem op ho)) hone2 ?_
      intro r2 hr2
      rcases applyOp_rowsOf q i op st hokop hone r2 hr2 with
        ⟨r, hr, _, hqeq, hle, _, _, _⟩
      rcases hinv r hr with ⟨hrq, hrb⟩
      exact ⟨by rw [hqeq, hrq], by omega⟩

/-- Without deletes of id `i`, the rows of id `i` never vanish. -/
theorem execOps_retained (q : Queue) (i : Nat) (st : Store) (ops : List Op)
    (hops : ∀ op ∈ ops, opOkB q i op = true)
    (hnd : ∀ op ∈ ops, noDeleteOfB i op = true)
    (hne : rowsOf i st ≠ []) : rowsOf i (execOps st ops) ≠ [] := by
  induction ops generalizing st with
  | nil => exact hne
  | cons op rest ih =>
      exact ih (applyOp st op)
        (fun o ho => hops o (List.mem_cons_of_mem op ho))
        (fun o ho => hnd o (List.mem_cons_of_mem op ho))
        (applyOp_rowsOf_ne q i op st (hops op (List.mem_cons_self op rest))
          (hnd op (List.mem_cons_self op rest)) hne)

/-- C3: under any sequence of queue operations in which storage-generated
ids are not reused and the queue's name carries one configuration, the
received count of the message with id `i` never decreases, is changed only
by a claim, stays at or below the max receive count when it starts there
(so the message is claimed at most `maxReceive` times), and once it has
reached the cap no later receive ever returns that message: it stays in the
store (no automatic purge, absent deletes) but is permanently
unclaimable. -/
theorem maxReceive_lifecycle (q : Queue) (i : Nat) (st : Store) (ops : List Op)
    (hone : (rowsOf i st).length ≤ 1)
    (hops : ∀ op ∈ ops, opOkB q i op = true) :
    (∀ r ∈ rowsOf i st, ∀ r2 ∈ rowsOf i (execOps st ops), r.received ≤ r2.received)
    ∧ ((∀ r ∈ rowsOf i st, r.queue = q.name ∧ r.received ≤ q.maxReceive) →
        ∀ r2 ∈ rowsOf i (execOps st ops), r2.received ≤ q.maxReceive)
    ∧ (∀ pre op suf, ops = pre ++ op :: suf → isReceiveB op = false →
        ∀ r ∈ rowsOf i (execOps st pre),
          ∀ r2 ∈ rowsOf i (applyOp (execOps st pre) op), r2.received = r.received)
    ∧ ((∀ r ∈ rowsOf i st, r.queue = q.name ∧ q.maxReceive ≤ r.received) →
        (∀ pre q2 now suf, ops = pre ++ Op.receive q2 now :: suf →
            ∀ (stx : Store) (m : Message),
              ReceiveTx q2 now (execOps st pre) = (stx, some m) → m.ID ≠ i)
        ∧ (∀ r2 ∈ rowsOf i (execOps st ops),
            r2.queue = q.name ∧ q.maxReceive ≤ r2.received
            ∧ ∀ t : Nat, claimableB q t r2 = false)
        ∧ ((∀ op ∈ ops, noDeleteOfB i op = true) → rowsOf i st ≠ [] →
            rowsOf i (execOps st ops) ≠ [])) := by
  refine ⟨?_, ?_, ?_, ?_⟩
  · intro r hr r2 hr2
    rcases execOps_rowsOf_descend q i st ops hops hone r2 hr2 with ⟨rr, hrr, hle⟩
    rw [mem_of_length_le_one hone hr hrr]
    exact hle
  · intro hinv r2 hr2
    exact (execOps_bound q i st ops hops hone hinv r2 hr2).2
  · intro pre op suf hsplit hnotrec r hr r2 hr2
    have hpre : ∀ o ∈ pre, opOkB q i o = true := by
      intro o ho
      exact hops o (by rw [hsplit]; exact List.mem_append.mpr (Or.inl ho))
    have hokop : opOkB q i op = true :=
      hops op (by rw [hsplit]; exact List.mem_append.mpr (Or.inr (List.mem_cons_self op suf)))
    have honepre : (rowsOf i (execOps st pre)).length ≤ 1 :=
      le_trans (execOps_rowsOf_len q i st pre hpre) hone
    rcases applyOp_rowsOf q i op (execOps st pre) hokop honepre r2 hr2 with
      ⟨rr, hrr, _, _, _, _, hnochange, _⟩
    rw [mem_of_length_le_one honepre hr hrr]
    exact hnochange hnotrec
  · intro hex
    refine ⟨?_, ?_, ?_⟩
    · intro pre q2 now suf hsplit stx m hrec hmi
      have hpre : ∀ o ∈ pre, opOkB q i o = true := by
        intro o ho
        exact hops o (by rw [hsplit]; exact List.mem_append.mpr (Or.inl ho))
      have hokop : opOkB q i (Op.receive q2 now) = true :=
        hops _ (by rw [hsplit]; exact List.mem_append.mpr (Or.inr (List.mem_cons_self _ suf)))
      have honepre : (rowsOf i (execOps st pre)).length ≤ 1 :=
        le_trans (execOps_rowsOf_len q i st pre hpre) hone
      rcases receiveTx_source hrec with ⟨sel, hselmem, hselc, hselid⟩
      have hselrows : sel ∈ rowsOf i (execOps st pre) :=
        List.mem_filter.mpr ⟨hselmem, by simp [hselid, hmi]⟩
      have hsx := execOps_exhausted q i st pre hpre hone hex sel hselrows
      have hcc := (claimableB_iff q2 now sel).mp hselc
      have hn : q2.name = q.name := by rw [← hcc.1]; exact hsx.1
      have hmax : q2.maxReceive = q.maxReceive := opOkB_receive hokop hn
      have h1 := hsx.2
      have h2 := hcc.2.2
      omega
    · intro r2 hr2
      have h := execOps_exhausted q i st ops hops hone hex r2 hr2
      refine ⟨h.1, h.2, ?_⟩
      intro t
      have hnl : ¬ (r2.received < q.maxReceive) := by omega
      simp [claimableB, hnl]
    · intro hnd hne
      exact execOps_retained q i st ops hops hnd hne

/-- Concrete instance of `maxReceive_lifecycle`: with `maxReceive = 1` and
the row of id 1 already received once, a receive returns the other (still
claimable) row, never id 1. -/
theorem maxReceive_lifecycle_witness :
    ({ ID := 2, Body := [], Delay := 0, Priority := 0 : Message }).ID ≠ 1 :=
  ((maxReceive_lifecycle { name := "q", maxReceive := 1, timeout := 100 } 1
      [{ id := 1, queue := "q", body := [], created := 0, timeout := 0,
         received := 1, priority := 0 : Row },
       { id := 2, queue := "q", body := [], created := 1, timeout := 0,
         received := 0, priority := 0 : Row }]
      [Op.receive { name := "q", maxReceive := 1, timeout := 100 } 50]
      (by decide) (by decide)).2.2.2 (by decide)).1
    [] { name := "q", maxReceive := 1, timeout := 100 } 50 [] rfl
    [{ id := 1, queue := "q", body := [], created := 0, timeout := 0,
       received := 1, priority := 0 : Row },
     { id := 2, queue := "q", body := [], created := 1, timeout := 150,
       received := 1, priority := 0 : Row }]
    { ID := 2, Body := [], Delay := 0, Priority := 0 }
    (by decide)

end Goqite
